import Mathlib

/-
Verification of the RFQ similarity pipeline (Task B of the vanillasteel data
assessment): a shallow embedding of the four core modules

  * grade_normalizer.py   (clean_grade_string, deduplicate_reference_data,
                           create_grade_mapping, join_with_reference)
  * range_parser.py       (parse_single_range)
  * feature_engineering.py (interval_overlap_ratio, categorical_match)
  * similarity_calculator.py (calculate_rfq_similarity and its three
                             component similarities)

Modelling conventions, applied uniformly:
  * pandas NaN / Python None for a scalar cell is modelled as `none` of an
    `Option` type; a present value is `some`.
  * Python floats are modelled as exact rationals.  All arithmetic the
    pipeline performs on them (halving, averaging, weighted sums,
    interval arithmetic) is modelled exactly.
  * Python strings are modelled as `List Char` wrapped in `String`;
    `str.upper` is modelled character-wise, which agrees with Python on
    ASCII (grade strings and the pipeline's marker characters are ASCII
    or case-less).
  * A pandas row is modelled as a structure of total functions from column
    names to optional values; a column that is absent from the frame is
    identified with an all-null column.
  * A Python `set` of strings is modelled as a duplicate-free `List String`
    whose order stands for the set's iteration order (which Python does not
    fix across processes).
-/

namespace RfqPipeline

/-! ## Generic stable insertion sort

`list.sort(key=..., reverse=True)` in Python is a stable sort; any stable
sort is extensionally unique, so we model it with an insertion sort that
places a new element before every already-placed element it is `le`-related
to.  The same machinery sorts the deduplicated reference keys (pandas
`groupby` emits groups in sorted key order). -/

def insertLe {α : Type} (le : α → α → Bool) (x : α) : List α → List α
  | [] => [x]
  | y :: ys => if le x y then x :: y :: ys else y :: insertLe le x ys

def sortLe {α : Type} (le : α → α → Bool) : List α → List α
  | [] => []
  | x :: xs => insertLe le x (sortLe le xs)

/-! ## Character and string primitives shared by the modules -/

/-- Python `str.strip` whitespace set (ASCII part). -/
def pyIsWs (c : Char) : Bool :=
  c = ' ' || c = '\t' || c = '\n' || c = '\r' || c = '\x0b' || c = '\x0c'

/-- Python `str.strip()` on a character list. -/
def pyStrip (cs : List Char) : List Char :=
  ((cs.dropWhile pyIsWs).reverse.dropWhile pyIsWs).reverse

/-- Lower-to-upper case table; Python `str.upper` acts character-wise like
this on ASCII input. -/
def upTable : List (Char × Char) :=
  [('a', 'A'), ('b', 'B'), ('c', 'C'), ('d', 'D'), ('e', 'E'), ('f', 'F'),
   ('g', 'G'), ('h', 'H'), ('i', 'I'), ('j', 'J'), ('k', 'K'), ('l', 'L'),
   ('m', 'M'), ('n', 'N'), ('o', 'O'), ('p', 'P'), ('q', 'Q'), ('r', 'R'),
   ('s', 'S'), ('t', 'T'), ('u', 'U'), ('v', 'V'), ('w', 'W'), ('x', 'X'),
   ('y', 'Y'), ('z', 'Z')]

/-- Character-wise model of Python `str.upper`. -/
def upChar (c : Char) : Char :=
  ((upTable.find? (fun p => p.1 = c)).map Prod.snd).getD c

/-- Lexicographic (code-point) order on character lists, as Python compares
strings; used only to emit pandas `groupby` groups in sorted key order. -/
def charsLe : List Char → List Char → Bool
  | [], _ => true
  | _ :: _, [] => false
  | x :: xs, y :: ys =>
      if x = y then charsLe xs ys else decide (x < y)

def strLe (a b : String) : Bool := charsLe a.data b.data

/-- Containment of one character list in another (Python `x in y` on
strings). -/
def isSubOf (pat s : List Char) : Bool :=
  match s with
  | [] => pat.isEmpty
  | _ :: rest => pat.isPrefixOf s || isSubOf pat rest

/-! ## grade_normalizer.clean_grade_string (grade_normalizer.py lines 74-91)

    grade = str(grade).strip().upper()
    grade = re.sub(r'\+.*$', '', grade)
    grade = grade.replace(' ', '').replace('-', '')
    if re.match(r'^DX\d{2}$', grade): grade = grade + 'D'

The regex `\+.*$` (no MULTILINE, `.` does not match a newline, `$` matches
at the end of the string or just before a final newline) removes from the
leftmost `+` that is followed by no newline before the anchor; one
replacement exhausts the matches.  `^DX\d{2}$` likewise also accepts a
single trailing newline. -/

/-- Body of `re.sub(r'\+.*$', '', s)` restricted to the part of `s` in
which `$` can anchor: cut from the first `+` whose remainder is
newline-free. -/
def cutPlus : List Char → List Char
  | [] => []
  | c :: rest =>
      if c = '+' && !(rest.contains '\n') then [] else c :: cutPlus rest

/-- Full `re.sub(r'\+.*$', '', s)`: a final newline survives (the anchor
sits just before it). -/
def stripPlusSuffix (cs : List Char) : List Char :=
  if cs.getLast? = some '\n' then cutPlus cs.dropLast ++ ['\n']
  else cutPlus cs

/-- Matches `^DX\d{2}$`: exactly `DX` plus two digits, allowing one final
newline before the `$` anchor. -/
def matchesDXdd (cs : List Char) : Bool :=
  let body := if cs.getLast? = some '\n' then cs.dropLast else cs
  decide (body.length = 4) && decide (body.getD 0 ' ' = 'D') &&
    decide (body.getD 1 ' ' = 'X') && (body.getD 2 ' ').isDigit &&
    (body.getD 3 ' ').isDigit

/-- Cleaning pipeline of `clean_grade_string` on the characters of a
non-null grade. -/
def cleanChars (cs : List Char) : List Char :=
  let s1 := (pyStrip cs).map upChar
  let s2 := stripPlusSuffix s1
  let s3 := s2.filter (fun c => !(c = ' ' || c = '-'))
  if matchesDXdd s3 then s3 ++ ['D'] else s3

/-- grade_normalizer.clean_grade_string.  `pd.isna` is true exactly for the
missing value, so only `none` short-circuits; the empty string runs through
the pipeline. -/
def clean_grade_string : Option String → Option String
  | none => none
  | some g => some (String.mk (cleanChars g.data))

/-! ## grade_normalizer.deduplicate_reference_data (lines 93-110) -/

/-- One reference row; only the `Grade/Material` cell participates in the
logic under verification, the remaining property cells ride along as the
opaque `props` payload. -/
structure RefRow where
  material : Option String
  props : List (String × Option String)
deriving DecidableEq

/-- The derived `grade_clean` column of the reference frame. -/
def refKey (r : RefRow) : Option String := clean_grade_string r.material

/-- `group['Grade/Material'].str.upper().str.replace(' ','').str.replace('-','')`:
uppercase and drop spaces and dashes, with no strip and no suffix cut. -/
def origClean (r : RefRow) : Option String :=
  r.material.map (fun s =>
    String.mk ((s.data.map upChar).filter (fun c => !(c = ' ' || c = '-'))))

/-- First row of the group whose `Grade/Material` has minimal length
(`idxmin` returns the first index attaining the minimum; null lengths are
skipped). -/
def shortestName : RefRow → List RefRow → RefRow
  | best, [] => best
  | best, r :: rs =>
      let better :=
        match r.material, best.material with
        | some m, some b => decide (m.length < b.length)
        | some _, none => true
        | _, _ => false
      if better then shortestName r rs else shortestName best rs

/-- `select_best_entry` for one `grade_clean` group. -/
def select_best_entry (key : String) (group : List RefRow) : RefRow :=
  match group with
  | [] => { material := none, props := [] }
  | [r] => r
  | r :: rs =>
      match (r :: rs).find? (fun q => origClean q = some key) with
      | some q => q
      | none => shortestName r rs

/-- Distinct keys in first-occurrence order. -/
def firstKeys : List RefRow → List String → List String
  | [], acc => acc.reverse
  | r :: rs, acc =>
      match refKey r with
      | some k => if acc.contains k then firstKeys rs acc else firstKeys rs (k :: acc)
      | none => firstKeys rs acc

/-- grade_normalizer.deduplicate_reference_data:
`ref_df.groupby('grade_clean').apply(select_best_entry)` — rows whose
`grade_clean` is null are dropped by `groupby`, groups are emitted in
sorted key order, and each group is collapsed to its best entry. -/
def deduplicate_reference_data (ref : List RefRow) : List RefRow :=
  (sortLe strLe (firstKeys ref [])).map
    (fun k => select_best_entry k (ref.filter (fun r => refKey r = some k)))

/-! ## grade_normalizer.create_grade_mapping (lines 112-141)

The fuzzy step is `difflib.get_close_matches(grade, ref_grades, n=1,
cutoff=0.8)`.  We embed `difflib.SequenceMatcher.ratio` exactly for the
no-junk case (autojunk only activates on sequences of length at least 200):
`ratio = 2*M/T` where `M` totals the sizes of the matching blocks found by
the recursive longest-matching-block decomposition and `T` is the sum of
the lengths.  With no junk the post-scan extension loops of
`find_longest_match` can never fire, so the block is exactly the first
longest run in (end-of-run, by `i` then `j`) scan order.  `quick_ratio`
and `real_quick_ratio` are upper bounds of `ratio`, so the cutoff filter
is equivalent to `ratio >= cutoff`; the 0.8 cutoff is modelled as the
exact rational 4/5. -/

/-- Length of the common prefix of two character lists. -/
def commonPrefixLen : List Char → List Char → ℕ
  | x :: xs, y :: ys => if x = y then 1 + commonPrefixLen xs ys else 0
  | _, _ => 0

/-- Length of the matching run that ends at positions `(i, j)` and stays
inside the window starting at `(alo, blo)`. -/
def runEndingAt (a b : List Char) (alo blo i j : ℕ) : ℕ :=
  commonPrefixLen (((a.drop alo).take (i + 1 - alo)).reverse)
    (((b.drop blo).take (j + 1 - blo)).reverse)

/-- One candidate end position for `find_longest_match`; a strictly longer
run replaces the best, so the first maximum in scan order wins, as in the
Python loop. -/
def flmStep (a b : List Char) (alo blo : ℕ) (best : ℕ × ℕ × ℕ) (ij : ℕ × ℕ) :
    ℕ × ℕ × ℕ :=
  let k := runEndingAt a b alo blo ij.1 ij.2
  if best.2.2 < k then (ij.1 + 1 - k, ij.2 + 1 - k, k) else best

/-- `SequenceMatcher.find_longest_match` on the window
`a[alo:ahi]`, `b[blo:bhi]`, for the no-junk case. -/
def findLongestMatch (a b : List Char) (alo ahi blo bhi : ℕ) : ℕ × ℕ × ℕ :=
  ((List.range' alo (ahi - alo)).flatMap
      (fun i => (List.range' blo (bhi - blo)).map (fun j => (i, j)))).foldl
    (flmStep a b alo blo) (alo, blo, 0)

/-- Total size of all matching blocks (`get_matching_blocks` recursion);
`fuel` dominates the recursion depth, which is bounded by the window
length, so the top-level call below never exhausts it. -/
def matchTotal (a b : List Char) : ℕ → ℕ → ℕ → ℕ → ℕ → ℕ
  | 0, _, _, _, _ => 0
  | fuel + 1, alo, ahi, blo, bhi =>
      let best := findLongestMatch a b alo ahi blo bhi
      let i := best.1
      let j := best.2.1
      let k := best.2.2
      if k = 0 then 0
      else k + matchTotal a b fuel alo i blo j + matchTotal a b fuel (i + k) ahi (j + k) bhi

/-- `SequenceMatcher(None, x, w).ratio()` as an exact fraction
`numerator/denominator = 2*M/T`, or `1/1` for two empty strings.  Ratio
comparisons below are cross-multiplications of these fractions, which is
the exact-arithmetic reading of the float comparisons in difflib. -/
def ratioFrac (x w : String) : ℕ × ℕ :=
  let a := x.data
  let b := w.data
  let t := a.length + b.length
  if t = 0 then (1, 1)
  else (2 * matchTotal a b (t + 1) 0 a.length 0 b.length, t)

/-- The `cutoff=0.8` test `ratio >= 0.8`, i.e. `4*T <= 10*M`. -/
def cutoffOk (w x : String) : Bool :=
  let r := ratioFrac x w
  decide (4 * r.2 ≤ 5 * r.1)

/-- Strict comparison of the `(ratio, string)` tuples that
`heapq.nlargest` maximises inside `get_close_matches`. -/
def betterCand (w x y : String) : Bool :=
  let rx := ratioFrac x w
  let ry := ratioFrac y w
  decide (ry.1 * rx.2 < rx.1 * ry.2) ||
  (decide (rx.1 * ry.2 = ry.1 * rx.2) && charsLe y.data x.data && !(decide (x = y)))

/-- Running maximum of the `(ratio, string)` tuples. -/
def pickBest (w : String) (acc : Option String) (x : String) : Option String :=
  match acc with
  | none => some x
  | some b => if betterCand w x b then some x else some b

/-- `difflib.get_close_matches(w, possibilities, n=1, cutoff=0.8)`:
the unique largest `(ratio, string)` tuple among candidates whose ratio
reaches the cutoff, or nothing. -/
def get_close_matches (w : String) (possibilities : List String) : Option String :=
  (possibilities.filter (cutoffOk w)).foldl (pickBest w) none

/-- The ratio as a rational number, for stating the order facts about
`betterCand`. -/
def ratioVal (w x : String) : ℚ :=
  ((ratioFrac x w).1 : ℚ) / ((ratioFrac x w).2 : ℚ)

/-- Substring-containment fallback test of the mapping loop
(`len(grade) >= 4 and (grade in ref_grade or ref_grade in grade)`). -/
def substrCand (g r : String) : Bool :=
  decide (4 ≤ g.length) && (isSubOf g.data r.data || isSubOf r.data g.data)

/-- Mapping decision of `create_grade_mapping` for one cleaned RFQ grade.
`refOrder` is the iteration order of the Python set `ref_grades`; the
substring fallback takes the first hit in that order. -/
def mapGrade (refOrder : List String) (g : String) : Option String :=
  if refOrder.contains g then some g
  else
    match get_close_matches g refOrder with
    | some m => some m
    | none => refOrder.find? (fun r => substrCand g r)

/-- grade_normalizer.create_grade_mapping as an association list over the
distinct cleaned RFQ grades; grades that match nothing are absent. -/
def create_grade_mapping (rfqGrades refOrder : List String) : List (String × String) :=
  rfqGrades.filterMap (fun g => (mapGrade refOrder g).map (fun m => (g, m)))

/-! ## grade_normalizer.join_with_reference (lines 143-162) -/

/-- One RFQ row; only `grade` drives the join, the remaining cells ride
along in downstream structures. -/
structure RfqRow where
  id : Option String
  grade : Option String
deriving DecidableEq

/-- The `grade_mapped` column: `rfq_df['grade_clean'].map(grade_mapping)`
(a missing key and a null key both yield null). -/
def gradeMapped (mapping : String → Option String) (l : RfqRow) : Option String :=
  (clean_grade_string l.grade).bind mapping

/-- grade_normalizer.join_with_reference: pandas left merge of the RFQ
frame on `grade_mapped` against the reference frame on `grade_clean`.
Each left row is emitted once per matching right row, or once with null
reference cells when nothing matches; pandas treats two null keys as
matching, which `Option` equality reproduces. -/
def join_with_reference (rfq : List RfqRow) (ref : List RefRow)
    (mapping : String → Option String) : List (RfqRow × Option RefRow) :=
  rfq.flatMap (fun l =>
    match ref.filter (fun r => refKey r = gradeMapped mapping l) with
    | [] => [(l, none)]
    | ms => ms.map (fun r => (l, some r)))

/-! ## range_parser.parse_single_range (range_parser.py lines 74-127)

    clean_str = re.sub(r'[A-Za-z%°]', '', value_str)
    clean_str = re.sub(r'\s+', ' ', clean_str).strip()

then an if/elif chain on markers, with numeric tokens from
`re.findall(r'[\d.]+', clean_str)` converted by `float`; `ValueError` and
`IndexError` are absorbed into the all-null triple. -/

/-- Characters removed by the unit-stripping regex `[A-Za-z%°]`. -/
def isUnitChar (c : Char) : Bool :=
  ('A' ≤ c && c ≤ 'Z') || ('a' ≤ c && c ≤ 'z') || c = '%' || c = '°'

/-- Helper of `collapseWs`; the flag records whether the previous character
was whitespace, so each whitespace run emits exactly one space. -/
def collapseWsAux : List Char → Bool → List Char
  | [], _ => []
  | c :: rest, prevWs =>
      if pyIsWs c then
        if prevWs then collapseWsAux rest true
        else ' ' :: collapseWsAux rest true
      else c :: collapseWsAux rest false

/-- `re.sub(r'\s+', ' ', s)`: collapse every whitespace run to one space. -/
def collapseWs (cs : List Char) : List Char := collapseWsAux cs false

/-- A character the token regex `[\d.]+` accepts. -/
def isTokChar (c : Char) : Bool := c.isDigit || c = '.'

/-- Maximal runs of `[\d.]` characters, i.e. `re.findall(r'[\d.]+', s)`. -/
def tokensAux : List Char → List Char → List (List Char)
  | [], acc => if acc.isEmpty then [] else [acc.reverse]
  | c :: cs, acc =>
      if isTokChar c then tokensAux cs (c :: acc)
      else (if acc.isEmpty then [] else [acc.reverse]) ++ tokensAux cs []

def numTokens (cs : List Char) : List (List Char) := tokensAux cs []

def digitsVal (ds : List Char) : ℕ :=
  ds.foldl (fun n c => 10 * n + (c.toNat - 48)) 0

/-- Python `float` applied to a `[\d.]+` token: it succeeds exactly when
the token has at most one dot and at least one digit. -/
def pyFloatTok (t : List Char) : Option ℚ :=
  if t.count '.' ≤ 1 && t.any Char.isDigit then
    let ip := t.takeWhile (fun c => !(c = '.'))
    let fp := (t.dropWhile (fun c => !(c = '.'))).drop 1
    some ((digitsVal ip : ℚ) + (digitsVal fp : ℚ) / (10 : ℚ) ^ fp.length)
  else none

/-- The stripped original, `value_str = str(value_str).strip()`. -/
def strippedOf (s : String) : List Char := pyStrip s.data

/-- The unit-stripped text `clean_str`. -/
def cleanedOf (s : String) : List Char :=
  pyStrip (collapseWs ((strippedOf s).filter (fun c => !(isUnitChar c))))

/-- `re.findall(r'[\d.]+', clean_str)`. -/
def toksOf (s : String) : List (List Char) := numTokens (cleanedOf s)

/-- `'≤' in value_str or '<=' in value_str`. -/
def hasUpperMark (s : String) : Bool :=
  (strippedOf s).contains '≤' || isSubOf ['<', '='] (strippedOf s)

/-- `'≥' in value_str or '>=' in value_str`. -/
def hasLowerMark (s : String) : Bool :=
  (strippedOf s).contains '≥' || isSubOf ['>', '='] (strippedOf s)

/-- `'-' in clean_str or '–' in clean_str`. -/
def hasRangeMark (s : String) : Bool :=
  (cleanedOf s).contains '-' || (cleanedOf s).contains '–'

/-- range_parser.parse_single_range.  The bound markers are looked for in
the stripped original text, the hyphen in the unit-stripped text, exactly
as in the source. -/
def parse_single_range : Option String → Option ℚ × Option ℚ × Option ℚ
  | none => (none, none, none)
  | some s =>
      if s = "" then (none, none, none)
      else
        let toks := toksOf s
        if hasUpperMark s then
          match toks with
          | t :: _ =>
              match pyFloatTok t with
              | some m => (none, some m, some (m / 2))
              | none => (none, none, none)
          | [] => (none, none, none)
        else if hasLowerMark s then
          match toks with
          | t :: _ =>
              match pyFloatTok t with
              | some m => (some m, none, none)
              | none => (none, none, none)
          | [] => (none, none, none)
        else if hasRangeMark s then
          match toks with
          | t0 :: t1 :: _ =>
              match pyFloatTok t0, pyFloatTok t1 with
              | some m0, some m1 => (some m0, some m1, some ((m0 + m1) / 2))
              | _, _ => (none, none, none)
          | _ => (none, none, none)
        else
          match toks with
          | t :: _ =>
              match pyFloatTok t with
              | some v => (none, none, some v)
              | none => (none, none, none)
          | [] => (none, none, none)

/-! ## feature_engineering similarity primitives (lines 144-163) -/

/-- feature_engineering.interval_overlap_ratio. -/
def interval_overlap_ratio (min1 max1 min2 max2 : Option ℚ) : ℚ :=
  match min1, max1, min2, max2 with
  | some a, some b, some c, some d =>
      let a2 := min a b
      let b2 := max a b
      let c2 := min c d
      let d2 := max c d
      let overlap := max 0 (min b2 d2 - max a2 c2)
      let union := max b2 d2 - min a2 c2
      if 0 < union then overlap / union else 0
  | _, _, _, _ => 0

/-- feature_engineering.categorical_match. -/
def categorical_match (v1 v2 : Option String) : ℚ :=
  match v1, v2 with
  | some a, some b => if a = b then 1 else 0
  | _, _ => 0

/-! ## similarity_calculator.calculate_rfq_similarity (lines 14-178)

A feature row carries its scalar and categorical cells as total functions
from column names; the three feature-column lists, computed once from the
frame's columns in the source, are parameters.  The fixed weights 0.50,
0.20, 0.30 appear as the exact rationals 1/2, 1/5, 3/10. -/

structure Row where
  id : Option String
  grade : Option String
  num : String → Option ℚ
  cat : String → Option String

structure SimResult where
  rfq_id : Option String
  match_id : Option String
  similarity_score : ℚ
  dimension_similarity : ℚ
  categorical_similarity : ℚ
  property_similarity : ℚ

def npMean (l : List ℚ) : ℚ := l.sum / (l.length : ℚ)

/-- similarity_calculator.calculate_dimension_similarity. -/
def calculate_dimension_similarity (dims : List (String × String)) (r1 r2 : Row) : ℚ :=
  let sims := dims.map (fun p =>
    interval_overlap_ratio (r1.num p.1) (r1.num p.2) (r2.num p.1) (r2.num p.2))
  if sims.isEmpty then 0 else npMean sims

/-- similarity_calculator.calculate_categorical_similarity. -/
def calculate_categorical_similarity (cats : List String) (r1 r2 : Row) : ℚ :=
  let ms := cats.map (fun c => categorical_match (r1.cat c) (r2.cat c))
  if ms.isEmpty then 0 else npMean ms

def colVals (df : List Row) (p : String) : List ℚ := df.filterMap (fun r => r.num p)

/-- `df[p].max() - df[p].min()` with pandas null-skipping; an all-null
column yields NaN, on which the `feature_range > 0` guard is false. -/
def featureRange (df : List Row) (p : String) : Option ℚ :=
  match colVals df p with
  | [] => none
  | v :: vs => some ((vs.foldl max v) - (vs.foldl min v))

/-- similarity_calculator.calculate_grade_property_similarity. -/
def calculate_grade_property_similarity (props : List String) (df : List Row)
    (r1 r2 : Row) : ℚ :=
  let sims := props.filterMap (fun p =>
    match r1.num p, r2.num p with
    | some v1, some v2 =>
        match featureRange df p with
        | some fr => if 0 < fr then some (max 0 (1 - |v1 - v2| / fr)) else none
        | none => none
    | _, _ => none)
  if sims.isEmpty then 0 else npMean sims

/-- Pandas `==` between two cells: a null never equals anything. -/
def optEqStr (a b : Option String) : Bool :=
  match a, b with
  | some x, some y => decide (x = y)
  | _, _ => false

def optEqQ (a b : Option ℚ) : Bool :=
  match a, b with
  | some x, some y => decide (x = y)
  | _, _ => false

/-- The exact-duplicate skip of the pair loop (lines 84-88): same raw
grade, same thickness centre, same width centre, under pandas `==`. -/
def isDup (r1 r2 : Row) : Bool :=
  optEqStr r1.grade r2.grade &&
  optEqQ (r1.num "thickness_center") (r2.num "thickness_center") &&
  optEqQ (r1.num "width_center") (r2.num "width_center")

/-- The weighted aggregate (lines 96-100): weights 0.50, 0.20, 0.30. -/
def aggregateScore (dims : List (String × String)) (cats props : List String)
    (df : List Row) (r1 r2 : Row) : ℚ :=
  (1 / 2 : ℚ) * calculate_dimension_similarity dims r1 r2 +
    (1 / 5 : ℚ) * calculate_categorical_similarity cats r1 r2 +
    (3 / 10 : ℚ) * calculate_grade_property_similarity props df r1 r2

/-- One scored pair (lines 90-109). -/
def mkResult (dims : List (String × String)) (cats props : List String)
    (df : List Row) (r1 r2 : Row) : SimResult :=
  { rfq_id := r1.id
    match_id := r2.id
    similarity_score := aggregateScore dims cats props df r1 r2
    dimension_similarity := calculate_dimension_similarity dims r1 r2
    categorical_similarity := calculate_categorical_similarity cats r1 r2
    property_similarity := calculate_grade_property_similarity props df r1 r2 }

def defaultRow : Row :=
  { id := none, grade := none, num := fun _ => none, cat := fun _ => none }

/-- `feature_df[feature_df['id'].notna()]` (line 61). -/
def validRows (rows : List Row) : List Row := rows.filter (fun r => r.id.isSome)

/-- Key order of `rfq_similarities.sort(key=..., reverse=True)`. -/
def scoreGe (x y : SimResult) : Bool :=
  decide (y.similarity_score ≤ x.similarity_score)

/-- All candidate pairs of one source row, in inner-loop encounter order
(lines 79-109). -/
def calcPairs (dims : List (String × String)) (cats props : List String)
    (df valid : List Row) (i1 : ℕ) : List SimResult :=
  (List.range valid.length).filterMap (fun i2 =>
    if i2 = i1 then none
    else if isDup (valid.getD i1 defaultRow) (valid.getD i2 defaultRow) then none
    else some (mkResult dims cats props df (valid.getD i1 defaultRow)
      (valid.getD i2 defaultRow)))

/-- Stable descending sort plus `[:3]` (lines 111-115). -/
def sourceBlock (dims : List (String × String)) (cats props : List String)
    (df valid : List Row) (i1 : ℕ) : List SimResult :=
  (sortLe scoreGe (calcPairs dims cats props df valid i1)).take 3

/-- similarity_calculator.calculate_rfq_similarity: the outer loop extends
the result list with each source row's top-3 block in scan order (batching
does not reorder the rows). -/
def calculate_rfq_similarity (dims : List (String × String)) (cats props : List String)
    (rows : List Row) : List SimResult :=
  (List.range (validRows rows).length).flatMap
    (fun i1 => sourceBlock dims cats props rows (validRows rows) i1)

/-! ## Claim-shaped predicates

Conjunctions asserted by the claims, packaged as predicates so that both
the general theorems and their concrete witnesses state them directly. -/

/-- Conclusion of claim C1 for one pair of rows. -/
def aggregateScoreOk (dims : List (String × String)) (cats props : List String)
    (df : List Row) (r1 r2 : Row) : Prop :=
  0 ≤ aggregateScore dims cats props df r1 r2 ∧
  aggregateScore dims cats props df r1 r2 ≤ 1 ∧
  (aggregateScore dims cats props df r1 r2 = 0 ↔
    calculate_dimension_similarity dims r1 r2 = 0 ∧
    calculate_categorical_similarity cats r1 r2 = 0 ∧
    calculate_grade_property_similarity props df r1 r2 = 0)

/-- Conclusion of claim C2 for one input configuration. -/
def joinPreservesRfq (rfq : List RfqRow) (ref : List RefRow)
    (mapping : String → Option String) : Prop :=
  (join_with_reference rfq (deduplicate_reference_data ref) mapping).length = rfq.length ∧
  ∀ pr ∈ join_with_reference rfq (deduplicate_reference_data ref) mapping,
    gradeMapped mapping pr.1 = none → pr.2 = none

/-- Conclusion of claim C5: the ordered pair of valid-row positions
`(i, j)` never surfaces as an output row. -/
def dupPairNeverOutput (dims : List (String × String)) (cats props : List String)
    (rows : List Row) (i j : ℕ) : Prop :=
  ∀ res ∈ calculate_rfq_similarity dims cats props rows,
    ¬(res.rfq_id = ((validRows rows).getD i defaultRow).id ∧
      res.match_id = ((validRows rows).getD j defaultRow).id)

/-- Conclusion of claim C6 for the source row at position `i1` of the
valid-row list. -/
def topBlockOk (dims : List (String × String)) (cats props : List String)
    (rows : List Row) (i1 : ℕ) : Prop :=
  (sourceBlock dims cats props rows (validRows rows) i1).length ≤ 3 ∧
  (sourceBlock dims cats props rows (validRows rows) i1).Pairwise
    (fun a b => b.similarity_score ≤ a.similarity_score) ∧
  (∀ q : ℚ,
    ((sourceBlock dims cats props rows (validRows rows) i1).filter
        (fun r => r.similarity_score = q)).Sublist
      ((calcPairs dims cats props rows (validRows rows) i1).filter
        (fun r => r.similarity_score = q))) ∧
  (calcPairs dims cats props rows (validRows rows) i1 = [] →
    sourceBlock dims cats props rows (validRows rows) i1 = []) ∧
  (∀ res ∈ sourceBlock dims cats props rows (validRows rows) i1,
    res ∈ calculate_rfq_similarity dims cats props rows ∧
    res.rfq_id = ((validRows rows).getD i1 defaultRow).id) ∧
  (∀ res ∈ calculate_rfq_similarity dims cats props rows,
    res.rfq_id = ((validRows rows).getD i1 defaultRow).id →
    res ∈ sourceBlock dims cats props rows (validRows rows) i1)

/-! # Theorems -/

/-! ## Stable insertion sort: permutation, sortedness, stability -/

theorem perm_insertLe {α : Type} (le : α → α → Bool) (x : α) :
    ∀ l : List α, (insertLe le x l).Perm (x :: l)
  | [] => List.Perm.refl _
  | y :: ys => by
      simp only [insertLe]
      split
      · exact List.Perm.refl _
      · exact (List.Perm.cons y (perm_insertLe le x ys)).trans (List.Perm.swap x y ys)

theorem perm_sortLe {α : Type} (le : α → α → Bool) :
    ∀ l : List α, (sortLe le l).Perm l
  | [] => List.Perm.refl _
  | x :: xs => (perm_insertLe le x (sortLe le xs)).trans
      (List.Perm.cons x (perm_sortLe le xs))

theorem pairwise_insertLe {α : Type} (le : α → α → Bool)
    (htot : ∀ a b, le a b = false → le b a = true)
    (htr : ∀ a b c, le a b = true → le b c = true → le a c = true) (x : α) :
    ∀ l : List α, l.Pairwise (fun a b => le a b = true) →
      (insertLe le x l).Pairwise (fun a b => le a b = true)
  | [], _ => by simp [insertLe]
  | y :: ys, h => by
      rw [List.pairwise_cons] at h
      simp only [insertLe]
      split
      case isTrue hxy =>
        refine List.pairwise_cons.mpr ⟨?_, List.pairwise_cons.mpr ⟨h.1, h.2⟩⟩
        intro z hz
        rcases List.mem_cons.mp hz with rfl | hz
        · exact hxy
        · exact htr x y z hxy (h.1 z hz)
      case isFalse hxy =>
        refine List.pairwise_cons.mpr ⟨?_, pairwise_insertLe le htot htr x ys h.2⟩
        intro z hz
        rcases List.mem_cons.mp ((perm_insertLe le x ys).mem_iff.mp hz) with rfl | hz
        · exact htot _ _ (Bool.eq_false_iff.mpr hxy)
        · exact h.1 z hz

theorem pairwise_sortLe {α : Type} (le : α → α → Bool)
    (htot : ∀ a b, le a b = false → le b a = true)
    (htr : ∀ a b c, le a b = true → le b c = true → le a c = true) :
    ∀ l : List α, (sortLe le l).Pairwise (fun a b => le a b = true)
  | [] => by simp [sortLe]
  | x :: xs => pairwise_insertLe le htot htr x _ (pairwise_sortLe le htot htr xs)

theorem filter_insertLe {α : Type} (le : α → α → Bool) (p : α → Bool)
    (hpc : ∀ a b, p a = true → p b = true → le a b = true) (x : α) :
    ∀ l : List α, (insertLe le x l).filter p = ((x :: l).filter p)
  | [] => rfl
  | y :: ys => by
      simp only [insertLe]
      split
      case isTrue hxy => rfl
      case isFalse hxy =>
        have ih := filter_insertLe le p hpc x ys
        cases hx : p x with
        | true =>
          cases hy : p y with
          | true => exact absurd (hpc x y hx hy) hxy
          | false => simp [List.filter_cons, hx, hy] at ih ⊢; exact ih
        | false =>
          cases hy : p y with
          | true => simp [List.filter_cons, hx, hy] at ih ⊢; exact ih
          | false => simp [List.filter_cons, hx, hy] at ih ⊢; exact ih

theorem filter_sortLe {α : Type} (le : α → α → Bool) (p : α → Bool)
    (hpc : ∀ a b, p a = true → p b = true → le a b = true) :
    ∀ l : List α, (sortLe le l).filter p = l.filter p
  | [] => rfl
  | x :: xs => by
      have h1 := filter_insertLe le p hpc x (sortLe le xs)
      have h2 := filter_sortLe le p hpc xs
      simp only [sortLe, h1, List.filter_cons]
      rw [h2]

/-! ## Bounds for the mean and the two similarity primitives -/

theorem npMean_nonneg (l : List ℚ) (h : ∀ x ∈ l, 0 ≤ x) : 0 ≤ npMean l :=
  div_nonneg (List.sum_nonneg h) (by positivity)

theorem npMean_le_one (l : List ℚ) (hne : l ≠ []) (h : ∀ x ∈ l, x ≤ 1) :
    npMean l ≤ 1 := by
  have hlen : 0 < (l.length : ℚ) := by
    have := List.length_pos.mpr hne
    exact_mod_cast this
  rw [npMean, div_le_one hlen]
  have := List.sum_le_card_nsmul l 1 h
  simpa using this

theorem interval_overlap_ratio_mem_unit (a b c d : Option ℚ) :
    0 ≤ interval_overlap_ratio a b c d ∧ interval_overlap_ratio a b c d ≤ 1 := by
  rcases a with _ | a <;> rcases b with _ | b <;> rcases c with _ | c <;>
    rcases d with _ | d
  all_goals simp only [interval_overlap_ratio]
  all_goals try exact ⟨le_rfl, by norm_num⟩
  split
  case isTrue hu =>
    constructor
    · exact div_nonneg (le_max_left _ _) (le_of_lt hu)
    · rw [div_le_one hu]
      have h1 : min (max a b) (max c d) ≤ max (max a b) (max c d) := min_le_max
      have h2 : min (min a b) (min c d) ≤ max (min a b) (min c d) := min_le_max
      have h3 : (0 : ℚ) ≤ max (max a b) (max c d) - min (min a b) (min c d) :=
        le_of_lt hu
      rw [max_le_iff]
      exact ⟨h3, by linarith⟩
  case isFalse hu => exact ⟨le_rfl, by norm_num⟩

theorem categorical_match_mem_unit (v1 v2 : Option String) :
    0 ≤ categorical_match v1 v2 ∧ categorical_match v1 v2 ≤ 1 := by
  rcases v1 with _ | x <;> rcases v2 with _ | y <;> simp [categorical_match]
  split <;> norm_num

theorem dimension_similarity_mem_unit (dims : List (String × String)) (r1 r2 : Row) :
    0 ≤ calculate_dimension_similarity dims r1 r2 ∧
      calculate_dimension_similarity dims r1 r2 ≤ 1 := by
  rw [calculate_dimension_similarity]
  split
  case isTrue h => norm_num
  case isFalse h =>
    have hne : dims.map (fun p =>
        interval_overlap_ratio (r1.num p.1) (r1.num p.2) (r2.num p.1) (r2.num p.2)) ≠ [] := by
      simpa [List.isEmpty_iff] using h
    constructor
    · refine npMean_nonneg _ (fun x hx => ?_)
      rcases List.mem_map.mp hx with ⟨p, _, rfl⟩
      exact (interval_overlap_ratio_mem_unit _ _ _ _).1
    · refine npMean_le_one _ hne (fun x hx => ?_)
      rcases List.mem_map.mp hx with ⟨p, _, rfl⟩
      exact (interval_overlap_ratio_mem_unit _ _ _ _).2

theorem categorical_similarity_mem_unit (cats : List String) (r1 r2 : Row) :
    0 ≤ calculate_categorical_similarity cats r1 r2 ∧
      calculate_categorical_similarity cats r1 r2 ≤ 1 := by
  rw [calculate_categorical_similarity]
  split
  case isTrue h => norm_num
  case isFalse h =>
    have hne : cats.map (fun c => categorical_match (r1.cat c) (r2.cat c)) ≠ [] := by
      simpa [List.isEmpty_iff] using h
    constructor
    · refine npMean_nonneg _ (fun x hx => ?_)
      rcases List.mem_map.mp hx with ⟨c, _, rfl⟩
      exact (categorical_match_mem_unit _ _).1
    · refine npMean_le_one _ hne (fun x hx => ?_)
      rcases List.mem_map.mp hx with ⟨c, _, rfl⟩
      exact (categorical_match_mem_unit _ _).2

theorem property_similarity_mem_unit (props : List String) (df : List Row) (r1 r2 : Row) :
    0 ≤ calculate_grade_property_similarity props df r1 r2 ∧
      calculate_grade_property_similarity props df r1 r2 ≤ 1 := by
  rw [calculate_grade_property_similarity]
  split
  case isTrue h => norm_num
  case isFalse h =>
    have hmem : ∀ x ∈ props.filterMap (fun p =>
        match r1.num p, r2.num p with
        | some v1, some v2 =>
            match featureRange df p with
            | some fr => if 0 < fr then some (max 0 (1 - |v1 - v2| / fr)) else none
            | none => none
        | _, _ => none), 0 ≤ x ∧ x ≤ 1 := by
      intro x hx
      rcases List.mem_filterMap.mp hx with ⟨p, _, hp⟩
      rcases h1 : r1.num p with _ | v1
      · simp [h1] at hp
      rcases h2 : r2.num p with _ | v2
      · simp [h1, h2] at hp
      rcases hr : featureRange df p with _ | fr
      · simp [h1, h2, hr] at hp
      by_cases hfr : 0 < fr
      · have hx2 : max 0 (1 - |v1 - v2| / fr) = x := by
          simp only [h1, h2, hr, if_pos hfr] at hp
          exact Option.some_inj.mp hp
        rw [← hx2]
        refine ⟨le_max_left _ _, ?_⟩
        rw [max_le_iff]
        refine ⟨by norm_num, ?_⟩
        have : 0 ≤ |v1 - v2| / fr := div_nonneg (abs_nonneg _) (le_of_lt hfr)
        linarith
      · simp [h1, h2, hr, if_neg hfr] at hp
    constructor
    · exact npMean_nonneg _ (fun x hx => (hmem x hx).1)
    · refine npMean_le_one _ (by simpa [List.isEmpty_iff] using h)
        (fun x hx => (hmem x hx).2)

/-- C7: `interval_overlap_ratio` returns 0 if any of its four inputs is
null; otherwise, after normalizing each interval so min ≤ max, it returns
`max 0 (min(max1,max2) - max(min1,min2))` divided by the union width, and
0 when the union is 0; in particular two identical point intervals give 0
and `(0,10,5,15)` gives `5/15`. -/
theorem interval_overlap_ratio_spec :
    (∀ b c d, interval_overlap_ratio none b c d = 0) ∧
    (∀ a c d, interval_overlap_ratio a none c d = 0) ∧
    (∀ a b d, interval_overlap_ratio a b none d = 0) ∧
    (∀ a b c, interval_overlap_ratio a b c none = 0) ∧
    (∀ a b c d : ℚ,
      interval_overlap_ratio (some a) (some b) (some c) (some d) =
        if 0 < max (max a b) (max c d) - min (min a b) (min c d) then
          max 0 (min (max a b) (max c d) - max (min a b) (min c d)) /
            (max (max a b) (max c d) - min (min a b) (min c d))
        else 0) ∧
    (∀ a : ℚ, interval_overlap_ratio (some a) (some a) (some a) (some a) = 0) ∧
    interval_overlap_ratio (some 0) (some 10) (some 5) (some 15) = 5 / 15 := by
  refine ⟨?_, ?_, ?_, ?_, ?_, ?_, ?_⟩
  · intro b c d; rcases b with _ | b <;> rcases c with _ | c <;> rcases d with _ | d <;> rfl
  · intro a c d; rcases a with _ | a <;> rcases c with _ | c <;> rcases d with _ | d <;> rfl
  · intro a b d; rcases a with _ | a <;> rcases b with _ | b <;> rcases d with _ | d <;> rfl
  · intro a b c; rcases a with _ | a <;> rcases b with _ | b <;> rcases c with _ | c <;> rfl
  · intro a b c d; rfl
  · intro a; simp [interval_overlap_ratio]
  · norm_num [interval_overlap_ratio]

/-- C1: for every pair of distinct valid records (non-null identifiers)
with at least one applicable feature group, the weighted aggregate
`0.50*dimension + 0.20*categorical + 0.30*grade-property` lies in `[0, 1]`
and is 0 exactly when all three group similarities are 0. -/
theorem aggregate_score_unit_interval (dims : List (String × String))
    (cats props : List String) (df : List Row) (r1 r2 : Row)
    (hv1 : r1.id.isSome) (hv2 : r2.id.isSome) (hne : r1.id ≠ r2.id)
    (happ : dims ≠ [] ∨ cats ≠ [] ∨ props ≠ []) :
    aggregateScoreOk dims cats props df r1 r2 := by
  have hd := dimension_similarity_mem_unit dims r1 r2
  have hc := categorical_similarity_mem_unit cats r1 r2
  have hp := property_similarity_mem_unit props df r1 r2
  refine ⟨?_, ?_, ?_, ?_⟩
  · rw [aggregateScore]; nlinarith [hd.1, hc.1, hp.1]
  · rw [aggregateScore]; nlinarith [hd.2, hc.2, hp.2]
  · intro h
    rw [aggregateScore] at h
    refine ⟨?_, ?_, ?_⟩ <;> nlinarith [hd.1, hc.1, hp.1]
  · rintro ⟨h1, h2, h3⟩
    rw [aggregateScore, h1, h2, h3]
    norm_num

/-- Witness for C1 at a concrete pair of valid records. -/
theorem aggregate_score_unit_interval_witness :
    aggregateScoreOk [("thickness_interval_min", "thickness_interval_max")]
      ["coating_clean"] []
      [] { id := some "RFQ1", grade := some "S235JR", num := fun _ => none,
           cat := fun _ => some "ZINC" }
      { id := some "RFQ2", grade := some "S355JR", num := fun _ => none,
        cat := fun _ => some "ZINC" } :=
  aggregate_score_unit_interval _ _ _ _ _ _ (by decide) (by decide)
    (by decide) (Or.inl (by decide))

/-! ## Character-class lemmas for the grade cleaner -/

theorem upChar_preserves (f : Char → Bool) (hf : ∀ p ∈ upTable, f p.1 = f p.2)
    (c : Char) : f (upChar c) = f c := by
  rw [upChar]
  cases h : upTable.find? (fun p => p.1 = c) with
  | none => rfl
  | some p =>
      have hm := List.mem_of_find?_eq_some h
      have he : p.1 = c := by simpa using List.find?_some h
      show f p.2 = f c
      rw [← he]
      exact (hf p hm).symm

theorem upChar_idem (c : Char) : upChar (upChar c) = upChar c := by
  cases h : upTable.find? (fun p => p.1 = c) with
  | none =>
      have hc : upChar c = c := by simp [upChar, h]
      rw [hc]
      exact hc
  | some p =>
      have hm := List.mem_of_find?_eq_some h
      have h1 : upChar c = p.2 := by simp [upChar, h]
      rw [h1]
      have hn : upTable.find? (fun q => q.1 = p.2) = none := by
        rw [List.find?_eq_none]
        intro q hq
        have hall : ∀ r ∈ upTable, ∀ q ∈ upTable, ¬(q.1 = r.2) := by decide
        simpa using hall p hm q hq
      simp [upChar, hn]

theorem pyIsWs_upChar (c : Char) : pyIsWs (upChar c) = pyIsWs c :=
  upChar_preserves pyIsWs (by decide) c

theorem upChar_beq_plus (c : Char) : (upChar c == '+') = (c == '+') :=
  upChar_preserves (fun x => x == '+') (by decide) c

theorem upChar_beq_nl (c : Char) : (upChar c == '\n') = (c == '\n') :=
  upChar_preserves (fun x => x == '\n') (by decide) c

theorem upChar_space : upChar ' ' = ' ' := by decide

theorem dropWhile_all_false {α : Type} {p : α → Bool} :
    ∀ l : List α, (∀ c ∈ l, p c = false) → l.dropWhile p = l
  | [], _ => rfl
  | c :: cs, h => by
      have hc : p c = false := h c (List.mem_cons_self c cs)
      simp [List.dropWhile_cons, hc]

theorem pyStrip_subset (cs : List Char) : ∀ c ∈ pyStrip cs, c ∈ cs := by
  intro c hc
  rw [pyStrip] at hc
  have h1 := List.mem_reverse.mp hc
  have h2 := (List.dropWhile_sublist pyIsWs).subset h1
  have h3 := List.mem_reverse.mp h2
  exact (List.dropWhile_sublist pyIsWs).subset h3

theorem pyStrip_no_ws (cs : List Char) (h : ∀ c ∈ cs, pyIsWs c = false) :
    pyStrip cs = cs := by
  rw [pyStrip, dropWhile_all_false cs h,
    dropWhile_all_false _ (fun c hc => h c (List.mem_reverse.mp hc)),
    List.reverse_reverse]

theorem map_fixed {f : Char → Char} :
    ∀ l : List Char, (∀ c ∈ l, f c = c) → l.map f = l
  | [], _ => rfl
  | c :: cs, h => by
      have := map_fixed cs (fun x hx => h x (List.mem_cons_of_mem c hx))
      simp [h c (List.mem_cons_self c cs), this]

theorem cutPlus_sublist : ∀ cs : List Char, (cutPlus cs).Sublist cs
  | [] => List.Sublist.refl _
  | c :: cs => by
      rw [cutPlus]
      split
      · exact List.nil_sublist _
      · exact (cutPlus_sublist cs).cons₂ c

theorem not_plus_mem_cutPlus : ∀ cs : List Char, '\n' ∉ cs → '+' ∉ cutPlus cs := by
  intro cs
  induction cs with
  | nil => intro _ h; simp [cutPlus] at h
  | cons c cs ih =>
      intro hnl h
      have hnl2 : '\n' ∉ cs := fun hm => hnl (List.mem_cons_of_mem c hm)
      have hcont : cs.contains '\n' = false := by
        rw [← Bool.not_eq_true]
        intro hc
        exact hnl2 (List.elem_iff.mp hc)
      rw [cutPlus] at h
      by_cases hc : c = '+'
      · have hcond : (decide (c = '+') && !cs.contains '\n') = true := by
          rw [hcont, hc]
          simp
        rw [if_pos hcond] at h
        simp at h
      · rw [if_neg (by simp [hc])] at h
        rcases List.mem_cons.mp h with he | hm
        · exact hc he.symm
        · exact ih hnl2 hm

theorem cutPlus_of_no_plus : ∀ cs : List Char, '+' ∉ cs → cutPlus cs = cs
  | [], _ => rfl
  | c :: cs, h => by
      have hc : ¬(c = '+') := fun he => h (he ▸ List.mem_cons_self c cs)
      rw [cutPlus, if_neg (by simp [hc]),
        cutPlus_of_no_plus cs (fun hm => h (List.mem_cons_of_mem c hm))]

theorem mem_of_getLast? : ∀ {cs : List Char} {a : Char}, cs.getLast? = some a → a ∈ cs
  | [], a, h => by simp at h
  | [x], a, h => by
      simp only [List.getLast?_singleton, Option.some_inj] at h
      simp [h]
  | x :: y :: t, a, h => by
      rw [List.getLast?_cons_cons] at h
      exact List.mem_cons_of_mem x (mem_of_getLast? h)

theorem stripPlus_of_no_newline (cs : List Char) (h : '\n' ∉ cs) :
    stripPlusSuffix cs = cutPlus cs := by
  have hne : ¬(cs.getLast? = some '\n') := fun hl => h (mem_of_getLast? hl)
  rw [stripPlusSuffix, if_neg hne]

/-- The character-class invariants of a cleaned grade, assuming the raw
text contains no whitespace beyond plain spaces. -/
theorem cleanChars_props (cs : List Char)
    (hws : ∀ c ∈ cs, pyIsWs c = true → c = ' ') :
    (∀ c ∈ cleanChars cs, pyIsWs c = false) ∧
    '+' ∉ cleanChars cs ∧
    '-' ∉ cleanChars cs ∧
    (∀ c ∈ cleanChars cs, upChar c = c) := by
  have hnlcs : '\n' ∉ cs := fun hm => by
    have := hws '\n' hm (by decide)
    simp at this
  have hs1mem : ∀ c ∈ (pyStrip cs).map upChar, ∃ c0 ∈ cs, c = upChar c0 := by
    intro c hc
    rcases List.mem_map.mp hc with ⟨c0, hc0, rfl⟩
    exact ⟨c0, pyStrip_subset cs c0 hc0, rfl⟩
  have hs1nl : '\n' ∉ (pyStrip cs).map upChar := by
    intro hm
    rcases hs1mem _ hm with ⟨c0, hc0, he⟩
    have hb : (upChar c0 == '\n') = (c0 == '\n') := upChar_beq_nl c0
    rw [← he] at hb
    simp at hb
    exact hnlcs (hb ▸ hc0)
  have hs1ws : ∀ c ∈ (pyStrip cs).map upChar, pyIsWs c = true → c = ' ' := by
    intro c hc hw
    rcases hs1mem _ hc with ⟨c0, hc0, rfl⟩
    rw [pyIsWs_upChar] at hw
    rw [hws c0 hc0 hw]
    exact upChar_space
  have hs2 : stripPlusSuffix ((pyStrip cs).map upChar) =
      cutPlus ((pyStrip cs).map upChar) := stripPlus_of_no_newline _ hs1nl
  have hs2sub : ∀ c ∈ stripPlusSuffix ((pyStrip cs).map upChar),
      c ∈ (pyStrip cs).map upChar := by
    rw [hs2]
    exact fun c hc => (cutPlus_sublist _).subset hc
  have hs2plus : '+' ∉ stripPlusSuffix ((pyStrip cs).map upChar) := by
    rw [hs2]
    exact not_plus_mem_cutPlus _ hs1nl
  have hfil : ∀ c ∈ (stripPlusSuffix ((pyStrip cs).map upChar)).filter
      (fun c => !(c = ' ' || c = '-')),
      c ∈ stripPlusSuffix ((pyStrip cs).map upChar) ∧ ¬(c = ' ') ∧ ¬(c = '-') := by
    intro c hc
    have h1 := List.mem_filter.mp hc
    refine ⟨h1.1, ?_, ?_⟩ <;> intro he <;> rw [he] at h1 <;> simp at h1
  have hres : ∀ c ∈ cleanChars cs,
      c = 'D' ∨ (c ∈ stripPlusSuffix ((pyStrip cs).map upChar) ∧
        ¬(c = ' ') ∧ ¬(c = '-')) := by
    intro c hc
    rw [cleanChars] at hc
    by_cases hdx : matchesDXdd ((stripPlusSuffix ((pyStrip cs).map upChar)).filter
        (fun c => !(c = ' ' || c = '-'))) = true
    · rw [if_pos hdx] at hc
      rcases List.mem_append.mp hc with hm | hm
      · exact Or.inr (hfil c hm)
      · simp at hm
        exact Or.inl hm
    · rw [if_neg hdx] at hc
      exact Or.inr (hfil c hc)
  refine ⟨?_, ?_, ?_, ?_⟩
  · intro c hc
    rcases hres c hc with rfl | ⟨hm, hsp, _⟩
    · decide
    · rw [← Bool.not_eq_true]
      intro hw
      exact hsp (hs1ws c (hs2sub c hm) hw)
  · intro hc
    rcases hres '+' hc with he | ⟨hm, _, _⟩
    · simp at he
    · exact hs2plus hm
  · intro hc
    rcases hres '-' hc with he | ⟨_, _, hd⟩
    · simp at he
    · exact hd rfl
  · intro c hc
    rcases hres c hc with rfl | ⟨hm, _, _⟩
    · decide
    · rcases hs1mem c (hs2sub c hm) with ⟨c0, _, rfl⟩
      exact upChar_idem c0

/-- The DX rule never fires on a cleaned grade a second time. -/
theorem cleanChars_stable (cs : List Char)
    (hws : ∀ c ∈ cs, pyIsWs c = true → c = ' ') :
    cleanChars (cleanChars cs) = cleanChars cs := by
  rcases cleanChars_props cs hws with ⟨hnws, hplus, hdash, hfix⟩
  have hnl : '\n' ∉ cleanChars cs := by
    intro hm
    have := hnws '\n' hm
    simp [pyIsWs] at this
  have hsp : ' ' ∉ cleanChars cs := by
    intro hm
    have := hnws ' ' hm
    simp [pyIsWs] at this
  have h1 : pyStrip (cleanChars cs) = cleanChars cs := pyStrip_no_ws _ hnws
  have h2 : (cleanChars cs).map upChar = cleanChars cs := map_fixed _ hfix
  have h3 : stripPlusSuffix (cleanChars cs) = cleanChars cs := by
    rw [stripPlus_of_no_newline _ hnl, cutPlus_of_no_plus _ hplus]
  have h4 : (cleanChars cs).filter (fun c => !(c = ' ' || c = '-')) = cleanChars cs := by
    rw [List.filter_eq_self]
    intro a ha
    have has : ¬(a = ' ') := fun he => hsp (he ▸ ha)
    have had : ¬(a = '-') := fun he => hdash (he ▸ ha)
    simp [has, had]
  have h5 : matchesDXdd (cleanChars cs) = false := by
    rw [cleanChars]
    set s3 := (stripPlusSuffix ((pyStrip cs).map upChar)).filter
      (fun c => !(c = ' ' || c = '-')) with hs3
    by_cases hdx : matchesDXdd s3 = true
    · rw [if_pos hdx]
      have hnl3 : ¬(s3.getLast? = some '\n') := by
        intro hl
        have hm : '\n' ∈ cleanChars cs := by
          rw [cleanChars, ← hs3, if_pos hdx]
          exact List.mem_append.mpr (Or.inl (mem_of_getLast? hl))
        exact hnl hm
      have hlen : s3.length = 4 := by
        rw [matchesDXdd, if_neg hnl3] at hdx
        simp only [Bool.and_eq_true, decide_eq_true_eq] at hdx
        exact hdx.1.1.1.1
      have hlast : (s3 ++ ['D']).getLast? = some 'D' := by
        simp [List.getLast?_append]
      rw [matchesDXdd]
      rw [if_neg (by rw [hlast]; intro h; simp at h)]
      simp [hlen]
    · rw [if_neg hdx]
      exact Bool.eq_false_iff.mpr hdx
  rw [cleanChars, h1, h2, h3, h4, h5]
  simp

/-- C4 counterexample: `clean_grade_string` maps the empty string to the
empty string, not to None (`pd.isna('')` is false, so the empty string
runs through the cleaning pipeline). -/
theorem clean_grade_empty_string_not_none :
    clean_grade_string (some "") = some "" ∧ clean_grade_string (some "") ≠ none := by
  constructor
  · rfl
  · intro h
    simp [clean_grade_string] at h

/-- C4 amended: `clean_grade_string` maps None to None; every other input,
including the empty string (which maps to the empty string, not None), is
trimmed and uppercased, the suffix from the first applicable `+` is
stripped, spaces and dashes are removed, and a `D` is appended when the
result is `DX` plus two digits; in particular dx51 ↦ DX51D and
S355JR+N ↦ S355JR. -/
theorem clean_grade_string_spec :
    clean_grade_string none = none ∧
    clean_grade_string (some "") = some "" ∧
    clean_grade_string (some "dx51") = some "DX51D" ∧
    clean_grade_string (some "S355JR+N") = some "S355JR" ∧
    (∀ g : String, clean_grade_string (some g) =
      some (String.mk
        (let u := (pyStrip g.data).map upChar
         let nosuf := stripPlusSuffix u
         let slim := nosuf.filter (fun c => !(c = ' ' || c = '-'))
         if matchesDXdd slim then slim ++ ['D'] else slim))) := by
  refine ⟨rfl, by decide, by decide, by decide, fun g => rfl⟩

/-- C10 counterexample: `clean_grade_string` is not idempotent.  On
`"A\t-"` the trailing dash protects the tab from the initial strip, the
dash is then removed, and the second pass strips the now-trailing tab. -/
theorem clean_grade_not_idempotent_tab :
    clean_grade_string (clean_grade_string (some "A\t-")) ≠
      clean_grade_string (some "A\t-") := by decide

/-- C10 amended: `clean_grade_string` is idempotent on every input whose
whitespace consists only of plain spaces (the counterexample above forces
excluding other whitespace, which `strip` removes only at the ends while
the replace step removes only the space character). -/
theorem clean_grade_idempotent_space_only (g : Option String)
    (hws : ∀ c ∈ (g.map String.data).getD [], pyIsWs c = true → c = ' ') :
    clean_grade_string (clean_grade_string g) = clean_grade_string g := by
  rcases g with _ | s
  · rfl
  · have hws2 : ∀ c ∈ s.data, pyIsWs c = true → c = ' ' := by
      intro c hc
      exact hws c (by simpa using hc)
    show some (String.mk (cleanChars (String.mk (cleanChars s.data)).data)) =
      some (String.mk (cleanChars s.data))
    rw [show (String.mk (cleanChars s.data)).data = cleanChars s.data from rfl,
      cleanChars_stable s.data hws2]

/-- Witness for C10 on a concrete space-only grade string. -/
theorem clean_grade_idempotent_space_only_witness :
    clean_grade_string (clean_grade_string (some " s 355-J2+N ")) =
      clean_grade_string (some " s 355-J2+N ") :=
  clean_grade_idempotent_space_only (some " s 355-J2+N ") (by decide)

/-! ## range_parser theorems -/

/-- C3: `parse_single_range` applies its rules in the stated priority
order — upper-bound marker, lower-bound marker, hyphen range with at least
two tokens, single token — returning the stated triples, with None input,
missing numeric tokens, or a failed float conversion yielding the all-null
triple; the five concrete spec examples evaluate as stated. -/
theorem parse_single_range_rules :
    parse_single_range none = (none, none, none) ∧
    (∀ s, toksOf s = [] → parse_single_range (some s) = (none, none, none)) ∧
    (∀ s t ts, hasUpperMark s = true → toksOf s = t :: ts →
      parse_single_range (some s) =
        match pyFloatTok t with
        | some m => (none, some m, some (m / 2))
        | none => (none, none, none)) ∧
    (∀ s t ts, hasUpperMark s = false → hasLowerMark s = true → toksOf s = t :: ts →
      parse_single_range (some s) =
        match pyFloatTok t with
        | some m => (some m, none, none)
        | none => (none, none, none)) ∧
    (∀ s t0 t1 ts, hasUpperMark s = false → hasLowerMark s = false →
      hasRangeMark s = true → toksOf s = t0 :: t1 :: ts →
      parse_single_range (some s) =
        match pyFloatTok t0, pyFloatTok t1 with
        | some m0, some m1 => (some m0, some m1, some ((m0 + m1) / 2))
        | _, _ => (none, none, none)) ∧
    (∀ s t ts, hasUpperMark s = false → hasLowerMark s = false →
      hasRangeMark s = false → toksOf s = t :: ts →
      parse_single_range (some s) =
        match pyFloatTok t with
        | some v => (none, none, some v)
        | none => (none, none, none)) ∧
    parse_single_range (some "≤0.17") = (none, some (17 / 100), some (17 / 200)) ∧
    parse_single_range (some "360-510 MPa") = (some 360, some 510, some 435) ∧
    parse_single_range (some "≥235 MPa") = (some 235, none, none) ∧
    parse_single_range (some "0.17") = (none, none, some (17 / 100)) := by
  refine ⟨rfl, ?_, ?_, ?_, ?_, ?_, ?_, ?_, ?_, ?_⟩
  · intro s h
    by_cases hs : s = ""
    · subst hs; rfl
    · simp [parse_single_range, hs, h]
  · intro s t ts hu ht
    have hs : ¬(s = "") := by
      rintro rfl
      rw [show toksOf "" = [] from rfl] at ht
      exact List.noConfusion ht
    simp [parse_single_range, hs, hu, ht]
  · intro s t ts hu hl ht
    have hs : ¬(s = "") := by
      rintro rfl
      rw [show toksOf "" = [] from rfl] at ht
      exact List.noConfusion ht
    simp [parse_single_range, hs, hu, hl, ht]
  · intro s t0 t1 ts hu hl hr ht
    have hs : ¬(s = "") := by
      rintro rfl
      rw [show toksOf "" = [] from rfl] at ht
      exact List.noConfusion ht
    simp [parse_single_range, hs, hu, hl, hr, ht]
  · intro s t ts hu hl hr ht
    have hs : ¬(s = "") := by
      rintro rfl
      rw [show toksOf "" = [] from rfl] at ht
      exact List.noConfusion ht
    simp [parse_single_range, hs, hu, hl, hr, ht]
  · simp +decide [parse_single_range, hasUpperMark, hasLowerMark, hasRangeMark, toksOf,
      cleanedOf, strippedOf, pyStrip, pyIsWs, collapseWs, collapseWsAux, isSubOf,
      numTokens, tokensAux, pyFloatTok, digitsVal, isTokChar, isUnitChar, List.dropWhile]
    try norm_num
  · simp +decide [parse_single_range, hasUpperMark, hasLowerMark, hasRangeMark, toksOf,
      cleanedOf, strippedOf, pyStrip, pyIsWs, collapseWs, collapseWsAux, isSubOf,
      numTokens, tokensAux, pyFloatTok, digitsVal, isTokChar, isUnitChar, List.dropWhile]
    try norm_num
  · simp +decide [parse_single_range, hasUpperMark, hasLowerMark, hasRangeMark, toksOf,
      cleanedOf, strippedOf, pyStrip, pyIsWs, collapseWs, collapseWsAux, isSubOf,
      numTokens, tokensAux, pyFloatTok, digitsVal, isTokChar, isUnitChar, List.dropWhile]
    try norm_num
  · simp +decide [parse_single_range, hasUpperMark, hasLowerMark, hasRangeMark, toksOf,
      cleanedOf, strippedOf, pyStrip, pyIsWs, collapseWs, collapseWsAux, isSubOf,
      numTokens, tokensAux, pyFloatTok, digitsVal, isTokChar, isUnitChar, List.dropWhile]
    try norm_num

/-- Witness for C3: each conditional rule applied at a concrete input. -/
theorem parse_single_range_rules_witness :
    parse_single_range (some "xyz") = (none, none, none) ∧
    parse_single_range (some "≤3") = (none, some 3, some (3 / 2)) ∧
    parse_single_range (some "≥7") = (some 7, none, none) ∧
    parse_single_range (some "1-5") = (some 1, some 5, some 3) ∧
    parse_single_range (some "2.5") = (none, none, some (5 / 2)) := by
  refine ⟨?_, ?_, ?_, ?_, ?_⟩
  · exact parse_single_range_rules.2.1 "xyz" (by decide)
  · have h := parse_single_range_rules.2.2.1 "≤3" ['3'] [] (by decide) (by decide)
    rw [h]
    simp +decide [pyFloatTok, digitsVal, List.foldl, List.takeWhile, List.dropWhile]
    try norm_num
  · have h := parse_single_range_rules.2.2.2.1 "≥7" ['7'] [] (by decide) (by decide)
      (by decide)
    rw [h]
    simp +decide [pyFloatTok, digitsVal, List.foldl, List.takeWhile, List.dropWhile]
    try norm_num
  · have h := parse_single_range_rules.2.2.2.2.1 "1-5" ['1'] ['5'] [] (by decide)
      (by decide) (by decide) (by decide)
    rw [h]
    simp +decide [pyFloatTok, digitsVal, List.foldl, List.takeWhile, List.dropWhile]
    try norm_num
  · have h := parse_single_range_rules.2.2.2.2.2.1 "2.5" ['2', '.', '5'] [] (by decide)
      (by decide) (by decide) (by decide)
    rw [h]
    simp +decide [pyFloatTok, digitsVal, List.foldl, List.takeWhile, List.dropWhile]
    try norm_num

/-- C9 counterexample: the claim fails when a bound marker coexists with
the hyphen: `"≤-3"` has a hyphen in its unit-stripped form and only one
numeric token, yet the upper-bound rule fires first and returns a non-null
triple. -/
theorem hyphen_marker_counterexample :
    hasRangeMark "≤-3" = true ∧ (toksOf "≤-3").length < 2 ∧
    parse_single_range (some "≤-3") ≠ (none, none, none) := by
  refine ⟨by decide, by decide, ?_⟩
  have he : parse_single_range (some "≤-3") = (none, some 3, some (3 / 2)) := by
    simp +decide [parse_single_range, hasUpperMark, hasLowerMark, hasRangeMark, toksOf,
      cleanedOf, strippedOf, pyStrip, pyIsWs, collapseWs, collapseWsAux, isSubOf,
      numTokens, tokensAux, pyFloatTok, digitsVal, isTokChar, isUnitChar, List.dropWhile]
    try norm_num
  rw [he]
  simp

/-- C9 amended: for every input without bound markers whose unit-stripped
form contains a hyphen or en-dash but yields fewer than two numeric
tokens, `parse_single_range` returns the all-null triple: once the hyphen
branch is reached the single-number fallback is never applied. -/
theorem hyphen_branch_all_null (s : String)
    (hu : hasUpperMark s = false) (hl : hasLowerMark s = false)
    (hr : hasRangeMark s = true) (ht : (toksOf s).length < 2) :
    parse_single_range (some s) = (none, none, none) := by
  have hs : ¬(s = "") := by
    rintro rfl
    exact absurd hr (by decide)
  rcases htk : toksOf s with _ | ⟨t0, _ | ⟨t1, ts⟩⟩
  · simp [parse_single_range, hs, hu, hl, hr, htk]
  · simp [parse_single_range, hs, hu, hl, hr, htk]
  · rw [htk] at ht
    simp only [List.length_cons] at ht
    omega

/-- Witness for C9 at the concrete input `"abc-5"`. -/
theorem hyphen_branch_all_null_witness :
    parse_single_range (some "abc-5") = (none, none, none) :=
  hyphen_branch_all_null "abc-5" (by decide) (by decide) (by decide) (by decide)

/-! ## similarity_calculator theorems -/

theorem mem_calcPairs {dims : List (String × String)} {cats props : List String}
    {df valid : List Row} {i1 : ℕ} {res : SimResult}
    (h : res ∈ calcPairs dims cats props df valid i1) :
    ∃ i2, i2 < valid.length ∧ i2 ≠ i1 ∧
      isDup (valid.getD i1 defaultRow) (valid.getD i2 defaultRow) = false ∧
      res = mkResult dims cats props df (valid.getD i1 defaultRow)
        (valid.getD i2 defaultRow) := by
  rcases List.mem_filterMap.mp h with ⟨i2, hmem, hf⟩
  have hi2 : i2 < valid.length := List.mem_range.mp hmem
  by_cases he : i2 = i1
  · rw [if_pos he] at hf
    exact absurd hf (by simp)
  · rw [if_neg he] at hf
    by_cases hd : isDup (valid.getD i1 defaultRow) (valid.getD i2 defaultRow) = true
    · rw [if_pos hd] at hf
      exact absurd hf (by simp)
    · rw [if_neg hd] at hf
      exact ⟨i2, hi2, he, Bool.eq_false_iff.mpr hd, (Option.some_inj.mp hf).symm⟩

theorem mem_of_sourceBlock {dims : List (String × String)} {cats props : List String}
    {df valid : List Row} {i1 : ℕ} {res : SimResult}
    (h : res ∈ sourceBlock dims cats props df valid i1) :
    res ∈ calcPairs dims cats props df valid i1 :=
  (perm_sortLe scoreGe _).mem_iff.mp (List.take_subset 3 _ h)

theorem sourceBlock_rfq_id {dims : List (String × String)} {cats props : List String}
    {df valid : List Row} {i1 : ℕ} {res : SimResult}
    (h : res ∈ sourceBlock dims cats props df valid i1) :
    res.rfq_id = (valid.getD i1 defaultRow).id := by
  rcases mem_calcPairs (mem_of_sourceBlock h) with ⟨i2, _, _, _, rfl⟩
  rfl

/-- A duplicate-free id column makes the valid-row position recoverable
from the id. -/
theorem valid_pos_of_id_eq {rows : List Row}
    (hnodup : ((validRows rows).map Row.id).Nodup) {i j : ℕ}
    (hi : i < (validRows rows).length) (hj : j < (validRows rows).length)
    (h : ((validRows rows).getD i defaultRow).id =
      ((validRows rows).getD j defaultRow).id) : i = j := by
  have e1 : (validRows rows).getD i defaultRow = (validRows rows)[i] := by
    rw [List.getD_eq_getElem?_getD, List.getElem?_eq_getElem hi]
    rfl
  have e2 : (validRows rows).getD j defaultRow = (validRows rows)[j] := by
    rw [List.getD_eq_getElem?_getD, List.getElem?_eq_getElem hj]
    rfl
  rw [e1, e2] at h
  have hmi : i < ((validRows rows).map Row.id).length := by
    rw [List.length_map]
    exact hi
  have hmj : j < ((validRows rows).map Row.id).length := by
    rw [List.length_map]
    exact hj
  refine (@List.Nodup.getElem_inj_iff _ _ hnodup i hmi j hmj).mp ?_
  rw [List.getElem_map, List.getElem_map]
  exact h

/-- C5: a pair of distinct valid records agreeing on raw grade, thickness
centre, and width centre (all non-null, under pandas equality) is skipped
by the pair loop, so its ids never appear together as an output row. -/
theorem duplicate_pair_never_in_output (dims : List (String × String))
    (cats props : List String) (rows : List Row) (i j : ℕ)
    (hi : i < (validRows rows).length) (hj : j < (validRows rows).length)
    (hij : i ≠ j)
    (hdup : isDup ((validRows rows).getD i defaultRow)
      ((validRows rows).getD j defaultRow) = true)
    (hnodup : ((validRows rows).map Row.id).Nodup) :
    dupPairNeverOutput dims cats props rows i j := by
  unfold dupPairNeverOutput
  rintro res hres ⟨h1, h2⟩
  rcases List.mem_flatMap.mp hres with ⟨i1, hi1mem, hblock⟩
  have hi1 : i1 < (validRows rows).length := List.mem_range.mp hi1mem
  rcases mem_calcPairs (mem_of_sourceBlock hblock) with ⟨i2, hi2, hne, hnd, rfl⟩
  have hid1 : ((validRows rows).getD i1 defaultRow).id =
      ((validRows rows).getD i defaultRow).id := h1
  have hid2 : ((validRows rows).getD i2 defaultRow).id =
      ((validRows rows).getD j defaultRow).id := h2
  have hii : i1 = i := valid_pos_of_id_eq hnodup hi1 hi hid1
  have hjj : i2 = j := valid_pos_of_id_eq hnodup hi2 hj hid2
  rw [hii, hjj] at hnd
  rw [hnd] at hdup
  exact Bool.noConfusion hdup

/-- Witness for C5: a duplicate pair in a three-row table is absent from
the output. -/
theorem duplicate_pair_never_in_output_witness :
    dupPairNeverOutput [] [] []
      [{ id := some "A", grade := some "S235", num := fun _ => some 1,
         cat := fun _ => none },
       { id := some "B", grade := some "S235", num := fun _ => some 1,
         cat := fun _ => none },
       { id := some "C", grade := some "S355", num := fun _ => some 2,
         cat := fun _ => none }] 0 1 :=
  duplicate_pair_never_in_output [] [] [] _ 0 1
    (by decide) (by decide) (by decide) (by decide) (by decide)

/-- C6: each source record's result set holds at most 3 rows, is ordered
by non-increasing aggregate score with ties in first-encountered order,
coincides with the rows of the output table carrying that record's id, and
is empty (rather than an error) when the record has no eligible
counterpart. -/
theorem top3_block_spec (dims : List (String × String)) (cats props : List String)
    (rows : List Row) (i1 : ℕ) (hi1 : i1 < (validRows rows).length)
    (hnodup : ((validRows rows).map Row.id).Nodup) :
    topBlockOk dims cats props rows i1 := by
  have htot : ∀ a b : SimResult, scoreGe a b = false → scoreGe b a = true := by
    intro a b h
    rw [scoreGe, decide_eq_false_iff_not] at h
    exact decide_eq_true (le_of_not_le h)
  have htr : ∀ a b c : SimResult,
      scoreGe a b = true → scoreGe b c = true → scoreGe a c = true := by
    intro a b c h1 h2
    rw [scoreGe, decide_eq_true_eq] at h1 h2 ⊢
    exact le_trans h2 h1
  unfold topBlockOk
  refine ⟨?_, ?_, ?_, ?_, ?_, ?_⟩
  · exact List.length_take_le 3 _
  · have hp := pairwise_sortLe scoreGe htot htr
      (calcPairs dims cats props rows (validRows rows) i1)
    have hp2 : (sortLe scoreGe
        (calcPairs dims cats props rows (validRows rows) i1)).Pairwise
        (fun a b => b.similarity_score ≤ a.similarity_score) :=
      hp.imp (fun h => by
        rw [scoreGe, decide_eq_true_eq] at h
        exact h)
    exact List.Pairwise.sublist (List.take_sublist 3 _) hp2
  · intro q
    have hpc : ∀ a b : SimResult, decide (a.similarity_score = q) = true →
        decide (b.similarity_score = q) = true → scoreGe a b = true := by
      intro a b ha hb
      rw [decide_eq_true_eq] at ha hb
      rw [scoreGe, decide_eq_true_eq, ha, hb]
    have heq := filter_sortLe scoreGe _ hpc
      (calcPairs dims cats props rows (validRows rows) i1)
    unfold sourceBlock
    have h1 := List.Sublist.filter (fun r : SimResult => decide (r.similarity_score = q))
      (List.take_sublist 3
        (sortLe scoreGe (calcPairs dims cats props rows (validRows rows) i1)))
    rw [heq] at h1
    exact h1
  · intro h
    unfold sourceBlock
    rw [h]
    rfl
  · intro res hres
    exact ⟨List.mem_flatMap.mpr ⟨i1, List.mem_range.mpr hi1, hres⟩,
      sourceBlock_rfq_id hres⟩
  · intro res hres hid
    rcases List.mem_flatMap.mp hres with ⟨i1', hi1'mem, hblock⟩
    have hi1' := List.mem_range.mp hi1'mem
    have hid' := sourceBlock_rfq_id hblock
    have he : i1' = i1 := valid_pos_of_id_eq hnodup hi1' hi1 (hid'.symm.trans hid)
    rw [he] at hblock
    exact hblock

/-- Witness for C6 at a concrete two-record table. -/
theorem top3_block_spec_witness :
    topBlockOk [] ["coating_clean"] []
      [{ id := some "A", grade := some "S235", num := fun _ => none,
         cat := fun _ => some "ZINC" },
       { id := some "B", grade := some "S355", num := fun _ => none,
         cat := fun _ => some "ZINC" }] 0 :=
  top3_block_spec [] ["coating_clean"] [] _ 0 (by decide) (by decide)

/-! ## grade_normalizer: deduplication and join theorems -/

theorem shortestName_mem : ∀ (best : RefRow) (rs : List RefRow),
    shortestName best rs ∈ best :: rs
  | best, [] => List.mem_cons_self best []
  | best, r :: rs => by
      rw [shortestName]
      split
      · exact List.mem_cons_of_mem best (shortestName_mem r rs)
      · rcases List.mem_cons.mp (shortestName_mem best rs) with he | hm
        · rw [he]
          exact List.mem_cons_self best (r :: rs)
        · exact List.mem_cons_of_mem _ (List.mem_cons_of_mem _ hm)

theorem select_best_entry_mem (k : String) :
    ∀ group : List RefRow, group ≠ [] → select_best_entry k group ∈ group
  | [], h => absurd rfl h
  | [r], _ => by simp [select_best_entry]
  | r :: r2 :: rs, _ => by
      cases hf : (r :: r2 :: rs).find? (fun q => origClean q = some k) with
      | some q =>
          have : select_best_entry k (r :: r2 :: rs) = q := by
            simp [select_best_entry, hf]
          rw [this]
          exact List.mem_of_find?_eq_some hf
      | none =>
          have : select_best_entry k (r :: r2 :: rs) = shortestName r (r2 :: rs) := by
            simp [select_best_entry, hf]
          rw [this]
          exact shortestName_mem r (r2 :: rs)

theorem nodup_firstKeys : ∀ (rs : List RefRow) (acc : List String),
    acc.Nodup → (firstKeys rs acc).Nodup
  | [], acc, h => by
      rw [firstKeys]
      exact List.nodup_reverse.mpr h
  | r :: rs, acc, h => by
      rw [firstKeys]
      cases hk : refKey r with
      | none => exact nodup_firstKeys rs acc h
      | some k =>
          show (if acc.contains k = true then firstKeys rs acc
            else firstKeys rs (k :: acc)).Nodup
          by_cases hc : acc.contains k = true
          · rw [if_pos hc]
            exact nodup_firstKeys rs acc h
          · rw [if_neg hc]
            refine nodup_firstKeys rs (k :: acc) (List.nodup_cons.mpr ⟨?_, h⟩)
            intro hm
            exact hc (List.elem_iff.mpr hm)

theorem mem_firstKeys : ∀ (rs : List RefRow) (acc : List String) (k : String),
    k ∈ firstKeys rs acc → k ∈ acc ∨ ∃ r ∈ rs, refKey r = some k
  | [], acc, k, h => by
      rw [firstKeys] at h
      exact Or.inl (List.mem_reverse.mp h)
  | r :: rs, acc, k, h => by
      rw [firstKeys] at h
      cases hk : refKey r with
      | none =>
          rw [hk] at h
          rcases mem_firstKeys rs acc k h with ha | ⟨r', hr', he⟩
          · exact Or.inl ha
          · exact Or.inr ⟨r', List.mem_cons_of_mem r hr', he⟩
      | some k0 =>
          rw [hk] at h
          replace h : k ∈ (if acc.contains k0 = true then firstKeys rs acc
            else firstKeys rs (k0 :: acc)) := h
          by_cases hc : acc.contains k0 = true
          · rw [if_pos hc] at h
            rcases mem_firstKeys rs acc k h with ha | ⟨r', hr', he⟩
            · exact Or.inl ha
            · exact Or.inr ⟨r', List.mem_cons_of_mem r hr', he⟩
          · rw [if_neg hc] at h
            rcases mem_firstKeys rs (k0 :: acc) k h with ha | ⟨r', hr', he⟩
            · rcases List.mem_cons.mp ha with he0 | ha2
              · exact Or.inr ⟨r, List.mem_cons_self r rs, by rw [hk, he0]⟩
              · exact Or.inl ha2
            · exact Or.inr ⟨r', List.mem_cons_of_mem r hr', he⟩

theorem dedup_keys_exist (ref : List RefRow) :
    ∀ k ∈ sortLe strLe (firstKeys ref []), ∃ r ∈ ref, refKey r = some k := by
  intro k hk
  have h1 := (perm_sortLe strLe (firstKeys ref [])).mem_iff.mp hk
  rcases mem_firstKeys ref [] k h1 with h | h
  · simp at h
  · exact h

theorem dedup_group_ne (ref : List RefRow) (k : String)
    (h : ∃ r ∈ ref, refKey r = some k) :
    ref.filter (fun r => refKey r = some k) ≠ [] := by
  rcases h with ⟨r, hr, he⟩
  intro hnil
  have hm : r ∈ ref.filter (fun r => refKey r = some k) :=
    List.mem_filter.mpr ⟨hr, decide_eq_true he⟩
  rw [hnil] at hm
  simp at hm

theorem dedup_entry_key (ref : List RefRow) (k : String)
    (hk : k ∈ sortLe strLe (firstKeys ref [])) :
    refKey (select_best_entry k (ref.filter (fun r => refKey r = some k))) = some k := by
  have hne := dedup_group_ne ref k (dedup_keys_exist ref k hk)
  have hmem := select_best_entry_mem k _ hne
  exact of_decide_eq_true (List.mem_filter.mp hmem).2

theorem mem_dedup_key (ref : List RefRow) :
    ∀ x ∈ deduplicate_reference_data ref, ∃ k, refKey x = some k := by
  intro x hx
  rcases List.mem_map.mp hx with ⟨k, hk, rfl⟩
  exact ⟨k, dedup_entry_key ref k hk⟩

theorem filter_map_keys_le_one (ref : List RefRow) (K : Option String) :
    ∀ keys : List String, keys.Nodup →
      (∀ k ∈ keys, refKey (select_best_entry k
        (ref.filter (fun r => refKey r = some k))) = some k) →
      ((keys.map (fun k => select_best_entry k
          (ref.filter (fun r => refKey r = some k)))).filter
        (fun r => refKey r = K)).length ≤ 1
  | [], _, _ => by simp
  | k :: ks, hnd, hf => by
      rw [List.map_cons, List.filter_cons]
      by_cases hK : refKey (select_best_entry k
          (ref.filter (fun r => refKey r = some k))) = K
      · rw [if_pos (decide_eq_true hK)]
        have hKk : K = some k := by
          rw [← hK, hf k (List.mem_cons_self k ks)]
        have htail : ((ks.map (fun k => select_best_entry k
            (ref.filter (fun r => refKey r = some k)))).filter
            (fun r => refKey r = K)) = [] := by
          rw [List.filter_eq_nil_iff]
          intro r hr
          rcases List.mem_map.mp hr with ⟨k', hk', rfl⟩
          have hk'key := hf k' (List.mem_cons_of_mem k hk')
          rw [decide_eq_true_eq, hk'key, hKk]
          intro he
          have : k' = k := Option.some_inj.mp he
          exact (List.nodup_cons.mp hnd).1 (this ▸ hk')
        rw [htail]
        simp
      · rw [if_neg (by simpa using hK)]
        exact filter_map_keys_le_one ref K ks (List.nodup_cons.mp hnd).2
          (fun k' h => hf k' (List.mem_cons_of_mem k h))

theorem dedup_filter_le_one (ref : List RefRow) (K : Option String) :
    ((deduplicate_reference_data ref).filter (fun r => refKey r = K)).length ≤ 1 := by
  unfold deduplicate_reference_data
  refine filter_map_keys_le_one ref K _ ?_ ?_
  · exact (perm_sortLe strLe (firstKeys ref [])).nodup_iff.mpr
      (nodup_firstKeys ref [] List.nodup_nil)
  · intro k hk
    exact dedup_entry_key ref k hk

theorem join_with_reference_length (rfq : List RfqRow) (refD : List RefRow)
    (mapping : String → Option String)
    (hle : ∀ K, (refD.filter (fun r => refKey r = K)).length ≤ 1) :
    (join_with_reference rfq refD mapping).length = rfq.length := by
  unfold join_with_reference
  induction rfq with
  | nil => rfl
  | cons l ls ih =>
      rw [List.flatMap_cons, List.length_append, ih]
      have hone : (match refD.filter (fun r => refKey r = gradeMapped mapping l) with
          | [] => [(l, (none : Option RefRow))]
          | ms => ms.map (fun r => (l, some r))).length = 1 := by
        cases hm : refD.filter (fun r => refKey r = gradeMapped mapping l) with
        | nil => rfl
        | cons m ms =>
            have h1 := hle (gradeMapped mapping l)
            rw [hm] at h1
            simp only [List.length_cons] at h1
            have hms : ms = [] := by
              rw [← List.length_eq_zero]
              omega
            subst hms
            rfl
      rw [hone]
      simp [Nat.add_comm]

theorem join_null_props (rfq : List RfqRow) (refD : List RefRow)
    (mapping : String → Option String)
    (hkeys : ∀ x ∈ refD, ∃ k, refKey x = some k) :
    ∀ pr ∈ join_with_reference rfq refD mapping,
      gradeMapped mapping pr.1 = none → pr.2 = none := by
  intro pr hpr hnull
  unfold join_with_reference at hpr
  rcases List.mem_flatMap.mp hpr with ⟨l, _, hin⟩
  cases hm : refD.filter (fun r => refKey r = gradeMapped mapping l) with
  | nil =>
      rw [hm] at hin
      rcases List.mem_singleton.mp hin with rfl
      rfl
  | cons m ms =>
      rw [hm] at hin
      rcases List.mem_map.mp hin with ⟨r, hr, rfl⟩
      have hrf : r ∈ refD.filter (fun r => refKey r = gradeMapped mapping l) := by
        rw [hm]
        exact hr
      have h2 := List.mem_filter.mp hrf
      have hkey : refKey r = gradeMapped mapping l := of_decide_eq_true h2.2
      rcases hkeys r h2.1 with ⟨k, hk⟩
      rw [hk] at hkey
      rw [show ((l, some r) : RfqRow × Option RefRow).1 = l from rfl] at hnull
      rw [hnull] at hkey
      exact Option.noConfusion hkey

/-- C2: the enriched table built by joining the RFQ rows against the
deduplicated reference table through the grade mapping has exactly one row
per RFQ row, and rows whose grade maps to nothing carry null reference
properties. -/
theorem grade_join_preserves_row_count (rfq : List RfqRow) (ref : List RefRow)
    (mapping : String → Option String) : joinPreservesRfq rfq ref mapping := by
  unfold joinPreservesRfq
  constructor
  · exact join_with_reference_length rfq _ mapping (dedup_filter_le_one ref)
  · exact join_null_props rfq _ mapping (mem_dedup_key ref)

/-- Witness for C2 on a concrete pair of tables, with a duplicated
reference grade and an unmapped RFQ grade. -/
theorem grade_join_preserves_row_count_witness :
    joinPreservesRfq
      [{ id := some "1", grade := some "S235" },
       { id := some "2", grade := some "weird" }]
      [{ material := some "S235", props := [] },
       { material := some "S 2-35", props := [] },
       { material := some "DX51", props := [] }]
      (fun s => if s = "S235" then some "S235" else none) :=
  grade_join_preserves_row_count _ _ _

/-! ## create_grade_mapping: the order facts behind C8

The exact and fuzzy stages of the mapping lookup are functions of the set
of reference grades alone; only the substring fallback depends on the
set's iteration order.  `betterCand` is shown to be the strict part of a
total order on strings (ratio first, then code-point order), which makes
the running-maximum fold permutation-invariant. -/

theorem charsLe_total : ∀ a b : List Char, charsLe a b = true ∨ charsLe b a = true
  | [], _ => Or.inl rfl
  | _ :: _, [] => Or.inr rfl
  | x :: xs, y :: ys => by
      by_cases he : x = y
      · rcases charsLe_total xs ys with h | h
        · exact Or.inl (by simp [charsLe, he, h])
        · exact Or.inr (by simp [charsLe, he.symm, h])
      · rcases lt_or_gt_of_ne he with h | h
        · exact Or.inl (by simp [charsLe, he, h])
        · exact Or.inr (by simp [charsLe, Ne.symm he, h])

theorem charsLe_antisymm : ∀ a b : List Char,
    charsLe a b = true → charsLe b a = true → a = b
  | [], [], _, _ => rfl
  | [], _ :: _, _, h2 => by simp [charsLe] at h2
  | _ :: _, [], h1, _ => by simp [charsLe] at h1
  | x :: xs, y :: ys, h1, h2 => by
      by_cases he : x = y
      · subst he
        simp only [charsLe, if_pos rfl] at h1 h2
        rw [charsLe_antisymm xs ys h1 h2]
      · have h1' : x < y := of_decide_eq_true (by simpa [charsLe, he] using h1)
        have h2' : y < x := of_decide_eq_true (by simpa [charsLe, Ne.symm he] using h2)
        exact absurd h1' (lt_asymm h2')

theorem charsLe_trans : ∀ a b c : List Char,
    charsLe a b = true → charsLe b c = true → charsLe a c = true
  | [], _, _, _, _ => rfl
  | _ :: _, [], _, h1, _ => by simp [charsLe] at h1
  | _ :: _, _ :: _, [], _, h2 => by simp [charsLe] at h2
  | x :: xs, y :: ys, z :: zs, h1, h2 => by
      by_cases hxy : x = y <;> by_cases hyz : y = z
      · subst hxy
        subst hyz
        simp only [charsLe, if_pos rfl] at h1 h2 ⊢
        exact charsLe_trans xs ys zs h1 h2
      · subst hxy
        simp only [charsLe, if_pos rfl] at h1
        simpa [charsLe, hyz] using h2
      · subst hyz
        simp only [charsLe, if_pos rfl] at h2
        simpa [charsLe, hxy] using h1
      · have hx : x < y := of_decide_eq_true (by simpa [charsLe, hxy] using h1)
        have hy : y < z := of_decide_eq_true (by simpa [charsLe, hyz] using h2)
        have hxz : x < z := lt_trans hx hy
        simp [charsLe, ne_of_lt hxz, hxz]

theorem ratioFrac_den_pos (w x : String) : 0 < (ratioFrac x w).2 := by
  unfold ratioFrac
  by_cases h : x.data.length + w.data.length = 0
  · rw [if_pos h]
    norm_num
  · rw [if_neg h]
    exact Nat.pos_of_ne_zero h

theorem betterCand_iff (w x y : String) :
    betterCand w x y = true ↔
      (ratioVal w y < ratioVal w x ∨
        (ratioVal w x = ratioVal w y ∧ charsLe y.data x.data = true ∧ ¬(x = y))) := by
  have hdx := ratioFrac_den_pos w x
  have hdy := ratioFrac_den_pos w y
  have hdx' : (0 : ℚ) < ((ratioFrac x w).2 : ℚ) := by exact_mod_cast hdx
  have hdy' : (0 : ℚ) < ((ratioFrac y w).2 : ℚ) := by exact_mod_cast hdy
  have h1 : ((ratioFrac y w).1 * (ratioFrac x w).2 < (ratioFrac x w).1 * (ratioFrac y w).2)
      ↔ ratioVal w y < ratioVal w x := by
    rw [ratioVal, ratioVal, div_lt_div_iff hdy' hdx']
    constructor <;> intro h <;> exact_mod_cast h
  have h2 : ((ratioFrac x w).1 * (ratioFrac y w).2 = (ratioFrac y w).1 * (ratioFrac x w).2)
      ↔ ratioVal w x = ratioVal w y := by
    rw [ratioVal, ratioVal, div_eq_div_iff (ne_of_gt hdx') (ne_of_gt hdy')]
    constructor <;> intro h <;> exact_mod_cast h
  rw [betterCand]
  simp only [Bool.or_eq_true, Bool.and_eq_true, decide_eq_true_eq, Bool.not_eq_true',
    decide_eq_false_iff_not]
  rw [h1, h2]
  tauto

theorem betterCand_asymm (w x y : String) (h : betterCand w x y = true) :
    betterCand w y x = false := by
  rw [Bool.eq_false_iff]
  intro h2
  rw [betterCand_iff] at h h2
  rcases h with h | ⟨he, hle, hne⟩ <;> rcases h2 with h2 | ⟨he2, hle2, hne2⟩
  · exact lt_asymm h h2
  · exact absurd he2 (ne_of_lt h)
  · exact absurd he (ne_of_lt h2)
  · exact hne (String.ext (charsLe_antisymm _ _ hle2 hle))

theorem betterCand_trans (w x y z : String) (h1 : betterCand w x y = true)
    (h2 : betterCand w y z = true) : betterCand w x z = true := by
  rw [betterCand_iff] at h1 h2 ⊢
  rcases h1 with h1 | ⟨he1, hle1, hne1⟩ <;> rcases h2 with h2 | ⟨he2, hle2, hne2⟩
  · exact Or.inl (lt_trans h2 h1)
  · exact Or.inl (he2 ▸ h1)
  · exact Or.inl (he1 ▸ h2)
  · refine Or.inr ⟨he1.trans he2, charsLe_trans _ _ _ hle2 hle1, ?_⟩
    intro hxz
    have : y = z := String.ext (charsLe_antisymm _ _ (hxz ▸ hle1) hle2)
    exact hne2 this

theorem eq_of_not_betterCand (w x y : String) (h1 : betterCand w x y = false)
    (h2 : betterCand w y x = false) : x = y := by
  by_contra hne
  rw [Bool.eq_false_iff] at h1 h2
  rcases lt_trichotomy (ratioVal w x) (ratioVal w y) with h | h | h
  · exact h2 ((betterCand_iff w y x).mpr (Or.inl h))
  · rcases charsLe_total x.data y.data with hc | hc
    · exact h2 ((betterCand_iff w y x).mpr (Or.inr ⟨h.symm, hc, Ne.symm hne⟩))
    · exact h1 ((betterCand_iff w x y).mpr (Or.inr ⟨h, hc, hne⟩))
  · exact h1 ((betterCand_iff w x y).mpr (Or.inl h))

theorem pick_comm_core (w x y : String) (hxy : ¬(x = y)) :
    (if betterCand w y x then (some y : Option String) else some x) =
      (if betterCand w x y then some x else some y) := by
  by_cases h1 : betterCand w y x = true
  · rw [if_pos h1, if_neg (Bool.eq_false_iff.mp (betterCand_asymm w y x h1))]
  · have h1' : betterCand w y x = false := Bool.eq_false_iff.mpr h1
    by_cases h2 : betterCand w x y = true
    · rw [if_neg h1, if_pos h2]
    · exact absurd (eq_of_not_betterCand w x y (Bool.eq_false_iff.mpr h2) h1') hxy

theorem pickBest_rightComm (w : String) : ∀ (acc : Option String) (x y : String),
    pickBest w (pickBest w acc x) y = pickBest w (pickBest w acc y) x := by
  intro acc x y
  by_cases hxy : x = y
  · rw [hxy]
  rcases acc with _ | b
  · show (if betterCand w y x then (some y : Option String) else some x) =
      (if betterCand w x y then some x else some y)
    exact pick_comm_core w x y hxy
  · by_cases hx : betterCand w x b = true
    · by_cases hy : betterCand w y b = true
      · have e1 : pickBest w (some b) x = some x := by simp [pickBest, hx]
        have e2 : pickBest w (some b) y = some y := by simp [pickBest, hy]
        rw [e1, e2]
        show (if betterCand w y x then (some y : Option String) else some x) =
          (if betterCand w x y then some x else some y)
        exact pick_comm_core w x y hxy
      · have e1 : pickBest w (some b) x = some x := by simp [pickBest, hx]
        have e2 : pickBest w (some b) y = some b := by simp [pickBest, hy]
        rw [e1, e2]
        have hyx : betterCand w y x = false := by
          rw [Bool.eq_false_iff]
          intro hc
          exact hy (betterCand_trans w y x b hc hx)
        show (if betterCand w y x then (some y : Option String) else some x) =
          (if betterCand w x b then some x else some b)
        rw [if_neg (Bool.eq_false_iff.mp hyx), if_pos hx]
    · by_cases hy : betterCand w y b = true
      · have e1 : pickBest w (some b) x = some b := by simp [pickBest, hx]
        have e2 : pickBest w (some b) y = some y := by simp [pickBest, hy]
        have hxy2 : betterCand w x y = false := by
          rw [Bool.eq_false_iff]
          intro hc
          exact hx (betterCand_trans w x y b hc hy)
        have e3 : pickBest w (some y) x = some y := by simp [pickBest, hxy2]
        rw [e1, e2, e3]
      · have e1 : pickBest w (some b) x = some b := by simp [pickBest, hx]
        have e2 : pickBest w (some b) y = some b := by simp [pickBest, hy]
        rw [e1, e2, e1]

theorem foldl_eq_of_perm {α β : Type} (f : β → α → β)
    (hc : ∀ acc x y, f (f acc x) y = f (f acc y) x) {l1 l2 : List α}
    (hp : l1.Perm l2) : ∀ acc, l1.foldl f acc = l2.foldl f acc := by
  induction hp with
  | nil => intro acc; rfl
  | cons a h ih => intro acc; rw [List.foldl_cons, List.foldl_cons, ih]
  | swap a b l =>
      intro acc
      rw [List.foldl_cons, List.foldl_cons, List.foldl_cons, List.foldl_cons, hc]
  | trans h1 h2 ih1 ih2 => intro acc; rw [ih1, ih2]

theorem get_close_matches_perm (w : String) {o1 o2 : List String} (hp : o1.Perm o2) :
    get_close_matches w o1 = get_close_matches w o2 := by
  unfold get_close_matches
  exact foldl_eq_of_perm (pickBest w) (pickBest_rightComm w)
    (hp.filter (cutoffOk w)) none

theorem find?_eq_head_filter {α : Type} (p : α → Bool) :
    ∀ l : List α, l.find? p = (l.filter p).head?
  | [] => rfl
  | x :: xs => by
      by_cases h : p x = true
      · rw [List.find?_cons_of_pos _ h, List.filter_cons_of_pos h]
        rfl
      · rw [List.find?_cons_of_neg _ h, List.filter_cons_of_neg h]
        exact find?_eq_head_filter p xs

theorem perm_eq_of_length_le_one {α : Type} {l1 l2 : List α} (hp : l1.Perm l2)
    (hl : l1.length ≤ 1) : l1 = l2 := by
  rcases l1 with _ | ⟨a, _ | ⟨b, t⟩⟩
  · rw [(hp.symm.eq_nil)]
  · exact (List.perm_singleton.mp hp.symm).symm
  · simp at hl

/-- The per-grade mapping lookup is iteration-order independent whenever
at most one reference grade passes the substring test. -/
theorem mapGrade_perm {o1 o2 : List String} (g : String) (hp : o1.Perm o2)
    (hsub : (o1.filter (fun r => substrCand g r)).length ≤ 1) :
    mapGrade o1 g = mapGrade o2 g := by
  unfold mapGrade
  have hcont : o1.contains g = o2.contains g := by
    by_cases hm : g ∈ o1
    · have h1 : o1.contains g = true := List.elem_iff.mpr hm
      have h2 : o2.contains g = true := List.elem_iff.mpr (hp.mem_iff.mp hm)
      rw [h1, h2]
    · have h1 : o1.contains g = false := by
        rw [← Bool.not_eq_true]
        intro hc
        exact hm (List.elem_iff.mp hc)
      have h2 : o2.contains g = false := by
        rw [← Bool.not_eq_true]
        intro hc
        exact hm (hp.mem_iff.mpr (List.elem_iff.mp hc))
      rw [h1, h2]
  have hfind : o1.find? (fun r => substrCand g r) = o2.find? (fun r => substrCand g r) := by
    rw [find?_eq_head_filter, find?_eq_head_filter,
      perm_eq_of_length_le_one (hp.filter (fun r => substrCand g r)) hsub]
  rw [hcont, get_close_matches_perm g hp, hfind]

set_option maxRecDepth 16000 in
/-- C8 counterexample: the mapping built by `create_grade_mapping` depends
on the iteration order of the reference-grade set, which Python's string
hash randomization does not fix across runs.  The grade ABCD matches
neither reference grade exactly or fuzzily (ratio 4/7 < 0.8 to both), and
both contain it as a substring, so the substring fallback picks whichever
the set yields first. -/
theorem create_grade_mapping_order_dependent :
    (["ABCDEFGHIJ", "ABCDKLMNOP"] : List String).Perm
      ["ABCDKLMNOP", "ABCDEFGHIJ"] ∧
    create_grade_mapping ["ABCD"] ["ABCDEFGHIJ", "ABCDKLMNOP"] ≠
      create_grade_mapping ["ABCD"] ["ABCDKLMNOP", "ABCDEFGHIJ"] := by
  constructor
  · decide
  · decide

/-- C8 amended: the pipeline's mapping construction is deterministic up to
the iteration order of the reference-grade set, and that order is
irrelevant — so re-running yields the identical mapping — provided at most
one reference grade qualifies at the substring-containment step for each
RFQ grade; the exact and fuzzy (difflib) stages are order-independent
unconditionally. -/
theorem create_grade_mapping_order_independent (rfqGrades o1 o2 : List String)
    (hp : o1.Perm o2)
    (hsub : ∀ g ∈ rfqGrades, (o1.filter (fun r => substrCand g r)).length ≤ 1) :
    create_grade_mapping rfqGrades o1 = create_grade_mapping rfqGrades o2 := by
  unfold create_grade_mapping
  refine List.filterMap_congr ?_
  intro g hg
  rw [mapGrade_perm g hp (hsub g hg)]

/-- Witness for the amended C8 at a concrete reordered reference set. -/
theorem create_grade_mapping_order_independent_witness :
    create_grade_mapping ["S235JR", "X999"] ["S235JR", "DX51D"] =
      create_grade_mapping ["S235JR", "X999"] ["DX51D", "S235JR"] :=
  create_grade_mapping_order_independent ["S235JR", "X999"] _ _ (by decide) (by decide)

end RfqPipeline
